import Mathlib

/-!
A shallow embedding of the DCT-steganography engine of `src/main.py`
(class `DCTSteganography`), together with theorems checking the
natural-language specification against it.

Modelling conventions:
* A Python text message is represented by its UTF-8 byte sequence, a
  `List (Fin 256)` (the code only ever consumes the UTF-8 encoding of the message).
* Python strings of binary digits are represented as `List Char`.
* numpy `int32` values are represented as `ℤ`; the bitwise operators
  `& ~1`, `| 1` and `& 1` of the code are `Int.land`/`Int.lor`/`Int.not`,
  which have the same two's-complement semantics as `int32` for all
  in-range values (and these particular operations never overflow).
* DCT coefficients (Python `float`) are idealised as `ℚ`; `np.round`
  (round half to even) is modelled exactly by `roundHalfEven`.
-/

namespace DCTStego

/-- The digit character Python produces for a bit value (`format` digit,
`str(0)`/`str(1)`). -/
def bitChar (n : ℕ) : Char := if n = 0 then '0' else '1'

/-- `int(c)` for a digit character `c` that is one of the characters
produced by `format(_, 'b')`, i.e. one of `'0'`, `'1'`. -/
def charVal (c : Char) : ℕ := if c = '0' then 0 else 1

/-- One binary digit of Python `int(s, 2)`: value of a digit character,
`none` when the character is not a binary digit. -/
def binDigit (c : Char) : Option ℕ :=
  if c = '0' then some 0 else if c = '1' then some 1 else none

/-- Models Python `int(s, 2)` on plain digit strings: fails (raising
`ValueError` in Python) on the empty string or on any character that is
not a binary digit; otherwise returns the most-significant-digit-first
value. (Python also accepts signs, whitespace and underscores, which the
program never produces; those inputs are out of the model.) -/
def parseBin (s : List Char) : Option ℕ :=
  if s.isEmpty then none
  else s.foldl (fun acc c =>
    match acc, binDigit c with
    | some a, some d => some (2 * a + d)
    | _, _ => none) (some 0)

/-- The numeric value of a binary digit string, most significant digit
first (the total companion of `parseBin`). -/
def bitsVal (s : List Char) : ℕ := s.foldl (fun a c => 2 * a + charVal c) 0

/-- The binary digits of `n`, most significant first, empty for `0`
(helper for the Python binary numeral of `n`). -/
def bitsMSB : ℕ → List Char
  | 0 => []
  | n+1 => bitsMSB ((n+1) / 2) ++ [bitChar ((n+1) % 2)]
decreasing_by exact Nat.div_lt_self (Nat.succ_pos n) (by omega)

/-- Python binary `format` of `n`: its binary numeral (the single digit
`'0'` for zero). -/
def pyBin (n : ℕ) : List Char := if n = 0 then ['0'] else bitsMSB n

/-- Python zero-padded binary `format` of `n` to width `w`: its binary numeral, left-padded
with `'0'` to width `w` (longer than `w` when the numeral needs more
digits). -/
def pyFormatBin (w n : ℕ) : List Char :=
  List.replicate (w - (pyBin n).length) '0' ++ pyBin n

/-- `DCTSteganography._message_to_binary` (src/main.py lines 16-18):
the concatenation of the 8-wide zero-padded binary numeral of each
byte of the UTF-8 encoding of the message. -/
def message_to_binary (msg : List (Fin 256)) : List Char :=
  (msg.map (fun b => pyFormatBin 8 b.val)).flatten

/-- The full binary payload built by `hide_message` (src/main.py lines
62-66): the 32-wide zero-padded binary numeral of the message bit length
(the Python `format` of `message_bit_length` with `LENGTH_HEADER_BITS = 32`)
followed by the message bits. -/
def fullPayload (msg : List (Fin 256)) : List Char :=
  pyFormatBin 32 (message_to_binary msg).length ++ message_to_binary msg

/-- Is `x` a UTF-8 continuation byte (`0x80..0xBF`)? -/
def isCont (x : ℕ) : Bool := 128 ≤ x && x ≤ 191

/-- Models the lenient CPython UTF-8 byte decode (ignore error handler) used in
`_binary_to_message` (src/main.py line 29): a total function from a byte
sequence to the decoded code points, silently skipping malformed
sequences (each maximal valid subpart of an ill-formed sequence is
dropped and decoding resumes at the next byte). It never fails. -/
def utf8DecodeIgnore : List ℕ → List ℕ
  | [] => []
  | b :: rest =>
    if b < 128 then b :: utf8DecodeIgnore rest
    else if 194 ≤ b && b ≤ 223 then
      match rest with
      | [] => []
      | c1 :: rest1 =>
        if isCont c1 then ((b - 192) * 64 + (c1 - 128)) :: utf8DecodeIgnore rest1
        else utf8DecodeIgnore (c1 :: rest1)
    else if 224 ≤ b && b ≤ 239 then
      match rest with
      | [] => []
      | c1 :: rest1 =>
        if (if b = 224 then 160 ≤ c1 && c1 ≤ 191
            else if b = 237 then 128 ≤ c1 && c1 ≤ 159
            else isCont c1) then
          match rest1 with
          | [] => []
          | c2 :: rest2 =>
            if isCont c2 then
              ((b - 224) * 4096 + (c1 - 128) * 64 + (c2 - 128)) :: utf8DecodeIgnore rest2
            else utf8DecodeIgnore (c2 :: rest2)
        else utf8DecodeIgnore (c1 :: rest1)
    else if 240 ≤ b && b ≤ 244 then
      match rest with
      | [] => []
      | c1 :: rest1 =>
        if (if b = 240 then 144 ≤ c1 && c1 ≤ 191
            else if b = 244 then 128 ≤ c1 && c1 ≤ 143
            else isCont c1) then
          match rest1 with
          | [] => []
          | c2 :: rest2 =>
            if isCont c2 then
              match rest2 with
              | [] => []
              | c3 :: rest3 =>
                if isCont c3 then
                  ((b - 240) * 262144 + (c1 - 128) * 4096 + (c2 - 128) * 64 + (c3 - 128))
                    :: utf8DecodeIgnore rest3
                else utf8DecodeIgnore (c3 :: rest3)
            else utf8DecodeIgnore (c2 :: rest2)
        else utf8DecodeIgnore (c1 :: rest1)
    else utf8DecodeIgnore rest

/-- The byte-collection loop of `_binary_to_message` (src/main.py lines
21-25): walk the bit string in segments of 8 characters, stop at a
segment shorter than 8, and turn each full segment into a byte with
`int(byte_segment, 2)` (whose failure, impossible on digit strings,
is propagated as `none`). -/
def collectBytes : List Char → Option (List ℕ)
  | c0 :: c1 :: c2 :: c3 :: c4 :: c5 :: c6 :: c7 :: rest =>
    match parseBin [c0, c1, c2, c3, c4, c5, c6, c7], collectBytes rest with
    | some b, some bs => some (b :: bs)
    | _, _ => none
  | _ => some []

/-- `DCTSteganography._binary_to_message` (src/main.py lines 20-31):
collect 8-character groups into bytes, then decode them as UTF-8 with
the ignore error handler. The surrounding `try` never fires because the
lenient decode is total. The result is the decoded code-point sequence
(the Python return value is the corresponding `str`). -/
def binary_to_message (s : List Char) : Option (List ℕ) :=
  (collectBytes s).map utf8DecodeIgnore

/-! ### Quantization and bit modulation -/

/-- An 8×8 matrix, indexed row first, as the numpy arrays of the code. -/
abbrev Mat8 (α : Type) := Fin 8 → Fin 8 → α

/-- `self.quantization_table` (src/main.py lines 8-13). -/
def quantization_table : Mat8 ℕ :=
  ![![16, 11, 10, 16, 24, 40, 51, 61], ![12, 12, 14, 19, 26, 58, 60, 55],
    ![14, 13, 16, 24, 40, 57, 69, 56], ![14, 17, 22, 29, 51, 87, 80, 62],
    ![18, 22, 37, 56, 68, 109, 103, 77], ![24, 35, 55, 64, 81, 104, 113, 92],
    ![49, 64, 78, 87, 103, 121, 120, 101], ![72, 92, 95, 98, 112, 100, 103, 99]]

/-- `np.round`: round to the nearest integer, ties to the even integer
(IEEE round-half-even, exact on our rational model of the floats). -/
def roundHalfEven (x : ℚ) : ℤ :=
  if x - (⌊x⌋ : ℚ) < 1 / 2 then ⌊x⌋
  else if 1 / 2 < x - (⌊x⌋ : ℚ) then ⌊x⌋ + 1
  else if ⌊x⌋ % 2 = 0 then ⌊x⌋ else ⌊x⌋ + 1

/-- The per-block quantization of the embedding loop (src/main.py line
89): `np.round(dct_blocks[i] / self.quantization_table).astype(np.int32)`. -/
def quantizeBlockHide (m : Mat8 ℚ) : Mat8 ℤ := fun i j =>
  roundHalfEven (m i j / (quantization_table i j : ℚ))

/-- The per-block quantization of the extraction loops (src/main.py
lines 121 and 132): the same expression as on the embedding side. -/
def quantizeBlockReveal (m : Mat8 ℚ) : Mat8 ℤ := fun i j =>
  roundHalfEven (m i j / (quantization_table i j : ℚ))

/-- The dequantization of the embedding loop (src/main.py line 95):
`quantized_block * self.quantization_table`. -/
def dequantizeBlock (q : Mat8 ℤ) : Mat8 ℚ := fun i j =>
  (q i j : ℚ) * (quantization_table i j : ℚ)

/-- The bit write (src/main.py lines 90-93): clear or set the least
significant bit of the integer at position `(2,1)` according to the
payload character (`&= ~1` for `'0'`, `|= 1` for `'1'`), leaving the
rest of the matrix as it is. -/
def modulateBlock (c : Char) (q : Mat8 ℤ) : Mat8 ℤ := fun i j =>
  if i = 2 ∧ j = 1 then
    (if charVal c = 0 then Int.land (q 2 1) (Int.not 1) else Int.lor (q 2 1) 1)
  else q i j

/-- `str(n)` for the values `n ∈ {0, 1}` produced by `& 1`. -/
def strBit (n : ℤ) : Char := if n = 0 then '0' else '1'

/-- The bit read (src/main.py lines 121-122 and 132-133):
`str(quantized_block[2, 1] & 1)`. -/
def extractBit (m : Mat8 ℚ) : Char :=
  strBit (Int.land (quantizeBlockReveal m 2 1) 1)

/-! ### The drivers -/

/-- The data carried by the `ValueError` that `hide_message` raises on
overflow (src/main.py lines 71-85): the image capacity in bytes,
`(len(dct_blocks) - self.LENGTH_HEADER_BITS) // 8` (Python floor
division on unbounded ints), and the message size
the byte count of the UTF-8 encoding of the message. -/
structure CapacityError where
  image_capacity_bytes : ℤ
  message_byte_count : ℕ
deriving DecidableEq

/-- The DCT-domain core of `DCTSteganography.hide_message` (src/main.py
lines 62-96), from the point where the payload is built over the block
sequence of the padded luma plane: if the payload is longer than the
block list, raise the capacity error (first component) with the block
list still untouched (second component, the state at raise time);
otherwise write one payload bit into each of the first
`len(full_binary_payload)` blocks by quantize → modulate → dequantize,
leaving later blocks unmodified. -/
def hide_message (blocks : List (Mat8 ℚ)) (msg : List (Fin 256)) :
    Option CapacityError × List (Mat8 ℚ) :=
  if (fullPayload msg).length > blocks.length then
    (some ⟨Int.fdiv ((blocks.length : ℤ) - 32) 8, msg.length⟩, blocks)
  else
    (none, blocks.mapIdx (fun i b =>
      match (fullPayload msg)[i]? with
      | some c => dequantizeBlock (modulateBlock c (quantizeBlockHide b))
      | none => b))

/-- The DCT-domain core of `DCTSteganography.reveal_message`
(src/main.py lines 115-135), from the point where the block sequence of
the padded luma plane is available: `none` models the Python `None`
returns; otherwise read the 32 header bits, parse them as a length,
check it against the remaining blocks, read the body bits and decode
them. -/
def reveal_message (blocks : List (Mat8 ℚ)) : Option (List ℕ) :=
  if blocks.length < 32 then none
  else
    match parseBin ((blocks.take 32).map extractBit) with
    | none => none
    | some message_length =>
      if message_length > blocks.length - 32 then none
      else binary_to_message (((blocks.drop 32).take message_length).map extractBit)

/-! ### Images, padding and cropping -/

/-- A 3-channel 8-bit raster of height `h` and width `w`; samples
outside the `h × w` region are irrelevant (numpy arrays have no such
entries), so image equality is dimension equality plus agreement of the
in-range samples. -/
structure Image where
  h : ℕ
  w : ℕ
  px : ℕ → ℕ → Fin 3 → ℕ

/-- `DCTSteganography._pad_image` (src/main.py lines 137-141):
`np.pad(img, ((0, h_pad), (0, w_pad), (0, 0)), constant_values=0)` with
`h_pad = (8 - h % 8) % 8` and `w_pad = (8 - w % 8) % 8`: zero samples
appended on the bottom and right only. -/
def pad_image (img : Image) : Image where
  h := img.h + (8 - img.h % 8) % 8
  w := img.w + (8 - img.w % 8) % 8
  px := fun i j c => if i < img.h ∧ j < img.w then img.px i j c else 0

/-- The final cropping step of `hide_message` (src/main.py line 102):
`stego_img_bgr[:h_orig, :w_orig, :]` (numpy slicing keeps the top-left
`min` region). -/
def cropImage (img : Image) (hN wN : ℕ) : Image where
  h := min hN img.h
  w := min wN img.w
  px := img.px

/-! ### Spec-side definitions (used only to compare against the code) -/

/-- Modelled from the spec: the 32-character most-significant-bit-first
binary representation of `n` (claim C4's description of the length
header). -/
def headerSpec (n : ℕ) : List Char :=
  (List.range 32).map (fun i => bitChar ((n >>> (31 - i)) % 2))

/-- Modelled from the spec: every UTF-8 byte expanded to 8 bits, most
significant bit first, in byte order (claim C4's description of the
message body bits). -/
def bodyBitsSpec (msg : List (Fin 256)) : List Char :=
  (msg.map (fun b => (List.range 8).map (fun i => bitChar ((b.val >>> (7 - i)) % 2)))).flatten

/-- Modelled from the spec: group the first `8 * (n / 8)` bits into
bytes, discarding the trailing incomplete group (claim C6's description
of the byte grouping). -/
def bytesSpec (s : List Char) : List ℕ :=
  (List.range (s.length / 8)).map (fun k => bitsVal ((s.drop (8 * k)).take 8))

/-- An all-zero luma block (used as a concrete witness input). -/
def zeroBlock : Mat8 ℚ := fun _ _ => 0

/-! ### Basic length facts for the payload codec -/

theorem bitsMSB_length_le {w n : ℕ} (h : n < 2 ^ w) : (bitsMSB n).length ≤ w := by
  induction w generalizing n with
  | zero =>
    interval_cases n
    simp [bitsMSB]
  | succ w ih =>
    match n with
    | 0 => simp [bitsMSB]
    | n+1 =>
      rw [bitsMSB]
      have hdiv : (n+1) / 2 < 2 ^ w := by
        have h2 : 2 ^ (w+1) = 2 * 2 ^ w := by ring
        omega
      have := ih hdiv
      simp only [List.length_append, List.length_singleton]
      omega

theorem lt_bitsMSB_length {w n : ℕ} (h : 2 ^ w ≤ n) : w < (bitsMSB n).length := by
  induction w generalizing n with
  | zero =>
    match n with
    | n+1 => rw [bitsMSB]; simp
  | succ w ih =>
    match n with
    | 0 => simp at h
    | n+1 =>
      rw [bitsMSB]
      have hdiv : 2 ^ w ≤ (n+1) / 2 := by
        have h2 : 2 ^ (w+1) = 2 * 2 ^ w := by ring
        omega
      have := ih hdiv
      simp only [List.length_append, List.length_singleton]
      omega

theorem pyBin_length_le {w n : ℕ} (hw : 1 ≤ w) (h : n < 2 ^ w) :
    (pyBin n).length ≤ w := by
  unfold pyBin
  split
  · simpa
  · exact bitsMSB_length_le h

theorem pyFormatBin_length {w n : ℕ} (hw : 1 ≤ w) (h : n < 2 ^ w) :
    (pyFormatBin w n).length = w := by
  have hl := pyBin_length_le hw h
  simp [pyFormatBin]
  omega

theorem message_to_binary_length (msg : List (Fin 256)) :
    (message_to_binary msg).length = 8 * msg.length := by
  induction msg with
  | nil => simp [message_to_binary]
  | cons b rest ih =>
    have hb : (pyFormatBin 8 b.val).length = 8 :=
      pyFormatBin_length (by omega) (by exact_mod_cast b.isLt)
    simp [message_to_binary] at ih ⊢
    omega

theorem fullPayload_length (msg : List (Fin 256)) (h : 8 * msg.length < 2 ^ 32) :
    (fullPayload msg).length = 32 + 8 * msg.length := by
  have hm := message_to_binary_length msg
  have hh : (pyFormatBin 32 (message_to_binary msg).length).length = 32 :=
    pyFormatBin_length (by omega) (by omega)
  simp [fullPayload]
  omega

/-! ### Binary digit strings and parsing -/

theorem bitChar_binary (n : ℕ) : bitChar n = '0' ∨ bitChar n = '1' := by
  unfold bitChar; split <;> simp

theorem strBit_binary (n : ℤ) : strBit n = '0' ∨ strBit n = '1' := by
  unfold strBit; split <;> simp

theorem extractBit_binary (m : Mat8 ℚ) : extractBit m = '0' ∨ extractBit m = '1' :=
  strBit_binary _

theorem bitsMSB_binary (n : ℕ) : ∀ c ∈ bitsMSB n, c = '0' ∨ c = '1' := by
  induction n using Nat.strong_induction_on with
  | _ n ih =>
    match n with
    | 0 => intro c hc; rw [bitsMSB] at hc; simp at hc
    | n+1 =>
      intro c hc
      rw [bitsMSB] at hc
      rcases List.mem_append.1 hc with h | h
      · exact ih ((n+1) / 2) (Nat.div_lt_self (Nat.succ_pos n) (by omega)) c h
      · simp at h
        exact h ▸ bitChar_binary _

theorem pyFormatBin_binary (w n : ℕ) : ∀ c ∈ pyFormatBin w n, c = '0' ∨ c = '1' := by
  intro c hc
  unfold pyFormatBin pyBin at hc
  rcases List.mem_append.1 hc with h | h
  · exact Or.inl (List.eq_of_mem_replicate h)
  · split at h
    · simp at h; exact Or.inl h
    · exact bitsMSB_binary n c h

theorem message_to_binary_binary (msg : List (Fin 256)) :
    ∀ c ∈ message_to_binary msg, c = '0' ∨ c = '1' := by
  intro c hc
  unfold message_to_binary at hc
  rcases List.mem_flatten.1 hc with ⟨l, hl, hcl⟩
  rcases List.mem_map.1 hl with ⟨b, _, rfl⟩
  exact pyFormatBin_binary 8 b.val c hcl

theorem fullPayload_binary (msg : List (Fin 256)) :
    ∀ c ∈ fullPayload msg, c = '0' ∨ c = '1' := by
  intro c hc
  rcases List.mem_append.1 hc with h | h
  · exact pyFormatBin_binary _ _ c h
  · exact message_to_binary_binary msg c h

theorem binDigit_of_binary {c : Char} (h : c = '0' ∨ c = '1') :
    binDigit c = some (charVal c) := by
  rcases h with rfl | rfl <;> simp [binDigit, charVal]

theorem parseBin_foldl (s : List Char) (a : ℕ)
    (hbin : ∀ c ∈ s, c = '0' ∨ c = '1') :
    s.foldl (fun acc c =>
      match acc, binDigit c with
      | some x, some d => some (2 * x + d)
      | _, _ => none) (some a) =
    some (s.foldl (fun x c => 2 * x + charVal c) a) := by
  induction s generalizing a with
  | nil => rfl
  | cons c t ih =>
    have hc := binDigit_of_binary (hbin c (by simp))
    simp only [List.foldl_cons, hc]
    exact ih _ (fun x hx => hbin x (by simp [hx]))

theorem parseBin_eq_bitsVal {s : List Char} (hne : s ≠ [])
    (hbin : ∀ c ∈ s, c = '0' ∨ c = '1') :
    parseBin s = some (bitsVal s) := by
  unfold parseBin bitsVal
  rw [if_neg (by simpa using hne)]
  exact parseBin_foldl s 0 hbin

/-! ### The byte-grouping loop -/

theorem collectBytes_eq : ∀ (s : List Char), (∀ c ∈ s, c = '0' ∨ c = '1') →
    collectBytes s = some (bytesSpec s)
  | [], _ => by simp [collectBytes, bytesSpec]
  | [c0], _ => by simp [collectBytes, bytesSpec]
  | [c0, c1], _ => by simp [collectBytes, bytesSpec]
  | [c0, c1, c2], _ => by simp [collectBytes, bytesSpec]
  | [c0, c1, c2, c3], _ => by simp [collectBytes, bytesSpec]
  | [c0, c1, c2, c3, c4], _ => by simp [collectBytes, bytesSpec]
  | [c0, c1, c2, c3, c4, c5], _ => by simp [collectBytes, bytesSpec]
  | [c0, c1, c2, c3, c4, c5, c6], _ => by simp [collectBytes, bytesSpec]
  | c0 :: c1 :: c2 :: c3 :: c4 :: c5 :: c6 :: c7 :: rest, hbin => by
    have hbin8 : ∀ c ∈ [c0, c1, c2, c3, c4, c5, c6, c7], c = '0' ∨ c = '1' := by
      intro c hc
      apply hbin
      simp at hc
      rcases hc with h | h | h | h | h | h | h | h <;> simp [h]
    have hrest : ∀ c ∈ rest, c = '0' ∨ c = '1' := by
      intro c hc; apply hbin; simp [hc]
    have ih := collectBytes_eq rest hrest
    have hp := @parseBin_eq_bitsVal [c0, c1, c2, c3, c4, c5, c6, c7]
      (by simp) hbin8
    rw [collectBytes, hp, ih]
    have hlen : (c0 :: c1 :: c2 :: c3 :: c4 :: c5 :: c6 :: c7 :: rest).length / 8 =
        rest.length / 8 + 1 := by simp; omega
    unfold bytesSpec
    rw [hlen, List.range_succ_eq_map]
    simp only [List.map_cons, List.map_map]
    congr 1

/-- C6: for every string of `'0'`/`'1'` characters, `_binary_to_message`
returns (never raising) the text obtained by grouping the first
`8 * (n / 8)` bits into bytes, dropping the incomplete trailing group,
and decoding those bytes as UTF-8 with invalid sequences ignored. -/
theorem binary_to_message_spec (s : List Char)
    (hbin : ∀ c ∈ s, c = '0' ∨ c = '1') :
    binary_to_message s = some (utf8DecodeIgnore (bytesSpec s)) := by
  unfold binary_to_message
  rw [collectBytes_eq s hbin]
  rfl

/-- Witness for C6 at a concrete 9-bit input: the trailing bit is
dropped and the single byte `01000001` decodes to code point 65. -/
theorem binary_to_message_spec_witness :
    binary_to_message ['0', '1', '0', '0', '0', '0', '0', '1', '1'] =
      some (utf8DecodeIgnore (bytesSpec ['0', '1', '0', '0', '0', '0', '0', '1', '1'])) :=
  binary_to_message_spec _ (by decide)

/-! ### Header extraction and parsing -/

theorem header_chars_binary (blocks : List (Mat8 ℚ)) :
    ∀ c ∈ (blocks.take 32).map extractBit, c = '0' ∨ c = '1' := by
  intro c hc
  rcases List.mem_map.1 hc with ⟨m, _, rfl⟩
  exact extractBit_binary m

theorem body_chars_binary (blocks : List (Mat8 ℚ)) (L : ℕ) :
    ∀ c ∈ ((blocks.drop 32).take L).map extractBit, c = '0' ∨ c = '1' := by
  intro c hc
  rcases List.mem_map.1 hc with ⟨m, _, rfl⟩
  exact extractBit_binary m

theorem extractBit_zeroBlock : extractBit zeroBlock = '0' := by
  have hq : quantizeBlockReveal zeroBlock 2 1 = 0 := by
    unfold quantizeBlockReveal zeroBlock roundHalfEven
    norm_num
  unfold extractBit
  rw [hq]
  decide

theorem bitsVal_replicate_zero (k : ℕ) : bitsVal (List.replicate k '0') = 0 := by
  unfold bitsVal
  induction k with
  | zero => rfl
  | succ n ih => simpa [List.replicate_succ, charVal] using ih

/-- C10: whenever the image has at least 32 blocks, the header string
that `reveal_message` builds consists only of the characters `'0'` and
`'1'`, so `int(length_binary, 2)` always succeeds; the
`except ValueError: return None` branch is unreachable. -/
theorem header_parse_total (blocks : List (Mat8 ℚ)) (h : 32 ≤ blocks.length) :
    parseBin ((blocks.take 32).map extractBit) =
      some (bitsVal ((blocks.take 32).map extractBit))
    ∧ ∀ c ∈ (blocks.take 32).map extractBit, c = '0' ∨ c = '1' := by
  have hne : (blocks.take 32).map extractBit ≠ [] := by
    apply List.ne_nil_of_length_pos
    simp
    omega
  exact ⟨parseBin_eq_bitsVal hne (header_chars_binary blocks), header_chars_binary blocks⟩

/-- Witness for C10 at 32 all-zero blocks. -/
theorem header_parse_total_witness :
    32 ≤ (List.replicate 32 zeroBlock).length
    ∧ parseBin (((List.replicate 32 zeroBlock).take 32).map extractBit) =
        some (bitsVal (((List.replicate 32 zeroBlock).take 32).map extractBit)) :=
  ⟨by simp, (header_parse_total (List.replicate 32 zeroBlock) (by simp)).1⟩

/-! ### The decode-side failure policy -/

/-- C7: `reveal_message` returns `None` exactly when the padded image
has fewer than 32 blocks or the parsed 32-bit length exceeds the number
of blocks after the header; a parsed length of zero instead yields the
empty message. -/
theorem reveal_none_iff (blocks : List (Mat8 ℚ)) :
    (reveal_message blocks = none ↔
      blocks.length < 32 ∨
        blocks.length - 32 < bitsVal ((blocks.take 32).map extractBit))
    ∧ (32 ≤ blocks.length → bitsVal ((blocks.take 32).map extractBit) = 0 →
        reveal_message blocks = some []) := by
  constructor
  · by_cases h32 : blocks.length < 32
    · simp [reveal_message, h32]
    · have hne : (blocks.take 32).map extractBit ≠ [] := by
        apply List.ne_nil_of_length_pos
        simp
        omega
      unfold reveal_message
      rw [if_neg h32, parseBin_eq_bitsVal hne (header_chars_binary blocks)]
      simp only
      by_cases hL : bitsVal ((blocks.take 32).map extractBit) > blocks.length - 32
      · rw [if_pos hL]
        exact ⟨fun _ => Or.inr hL, fun _ => rfl⟩
      · rw [if_neg hL]
        unfold binary_to_message
        rw [collectBytes_eq _ (body_chars_binary blocks _)]
        constructor
        · intro hx
          exact absurd hx (by simp)
        · intro hx
          rcases hx with hx | hx
          · omega
          · omega
  · intro h32 hL0
    have hne : (blocks.take 32).map extractBit ≠ [] := by
      apply List.ne_nil_of_length_pos
      simp
      omega
    unfold reveal_message
    rw [if_neg (by omega), parseBin_eq_bitsVal hne (header_chars_binary blocks)]
    simp only [hL0]
    rw [if_neg (by omega)]
    simp [binary_to_message, collectBytes, utf8DecodeIgnore]

/-- Witness for C7 at 32 all-zero blocks: the parsed length is zero and
the revealed message is the empty string, not `None`. -/
theorem reveal_none_iff_witness :
    32 ≤ (List.replicate 32 zeroBlock).length
    ∧ bitsVal (((List.replicate 32 zeroBlock).take 32).map extractBit) = 0
    ∧ reveal_message (List.replicate 32 zeroBlock) = some [] := by
  have h1 : 32 ≤ (List.replicate 32 zeroBlock).length := by simp
  have h2 : bitsVal (((List.replicate 32 zeroBlock).take 32).map extractBit) = 0 := by
    rw [List.take_replicate, List.map_replicate, extractBit_zeroBlock]
    exact bitsVal_replicate_zero _
  exact ⟨h1, h2, (reveal_none_iff _).2 h1 h2⟩

/-! ### Two's-complement bit manipulation (C5) -/

theorem nat_ldiff_one_land_one (m : ℕ) : Nat.ldiff m 1 &&& 1 = 0 := by
  apply Nat.eq_of_testBit_eq
  intro i
  rw [Nat.testBit_and, Nat.testBit_ldiff, Nat.zero_testBit]
  cases i with
  | zero => simp
  | succ k => simp [Nat.testBit_succ]

theorem nat_lor_one_land_one (m : ℕ) : (m ||| 1) &&& 1 = 1 := by
  apply Nat.eq_of_testBit_eq
  intro i
  rw [Nat.testBit_and, Nat.testBit_or]
  cases i with
  | zero => simp
  | succ k => simp [Nat.testBit_succ]

theorem nat_ldiff_one_lor (m : ℕ) : Nat.ldiff 1 (m ||| 1) = 0 := by
  apply Nat.eq_of_testBit_eq
  intro i
  rw [Nat.testBit_ldiff, Nat.testBit_or, Nat.zero_testBit]
  cases i with
  | zero => simp
  | succ k => simp [Nat.testBit_succ]

theorem nat_ldiff_one_ldiff (m : ℕ) : Nat.ldiff 1 (Nat.ldiff m 1) = 1 := by
  apply Nat.eq_of_testBit_eq
  intro i
  rw [Nat.testBit_ldiff, Nat.testBit_ldiff]
  cases i with
  | zero => simp
  | succ k => simp [Nat.testBit_succ]

/-- `(n & ~1) & 1 == 0` for every integer, negative ones included. -/
theorem int_clear_lsb (n : ℤ) : Int.land (Int.land n (Int.not 1)) 1 = 0 := by
  cases n with
  | ofNat m =>
    show Int.ofNat (Nat.ldiff m 1 &&& 1) = 0
    rw [nat_ldiff_one_land_one]
    rfl
  | negSucc m =>
    show Int.ofNat (Nat.ldiff 1 (m ||| 1)) = 0
    rw [nat_ldiff_one_lor]
    rfl

/-- `(n | 1) & 1 == 1` for every integer, negative ones included. -/
theorem int_set_lsb (n : ℤ) : Int.land (Int.lor n 1) 1 = 1 := by
  cases n with
  | ofNat m =>
    show Int.ofNat ((m ||| 1) &&& 1) = 1
    rw [nat_lor_one_land_one]
    rfl
  | negSucc m =>
    show Int.ofNat (Nat.ldiff 1 (Nat.ldiff m 1)) = 1
    rw [nat_ldiff_one_ldiff]
    rfl

/-- C5: writing a payload bit into a quantized integer matrix forces the
least significant bit of the integer at `(2,1)` to the bit value — also
when that integer is negative, under the two's-complement semantics of
`Int.land`/`Int.lor` — leaves every other entry unchanged, and the bit
read (`& 1` at `(2,1)`) recovers the bit. -/
theorem modulate_read_round_trip (q : Mat8 ℤ) (c : Char) (h : c = '0' ∨ c = '1') :
    Int.land (modulateBlock c q 2 1) 1 = (charVal c : ℤ)
    ∧ strBit (Int.land (modulateBlock c q 2 1) 1) = c
    ∧ ∀ i j, ¬(i = 2 ∧ j = 1) → modulateBlock c q i j = q i j := by
  have hmain : Int.land (modulateBlock c q 2 1) 1 = (charVal c : ℤ) := by
    unfold modulateBlock
    rw [if_pos (And.intro rfl rfl)]
    rcases h with rfl | rfl
    · rw [if_pos (by simp [charVal])]
      simpa [charVal] using int_clear_lsb (q 2 1)
    · rw [if_neg (by simp [charVal])]
      simpa [charVal] using int_set_lsb (q 2 1)
  refine ⟨hmain, ?_, ?_⟩
  · rw [hmain]
    rcases h with rfl | rfl <;> simp [charVal, strBit]
  · intro i j hij
    unfold modulateBlock
    rw [if_neg hij]

/-- Witness for C5 at the all-`-5` matrix and bit `'1'`: the read
recovers the written bit from a negative carrier integer. -/
theorem modulate_read_round_trip_witness :
    (('1' : Char) = '0' ∨ ('1' : Char) = '1')
    ∧ strBit (Int.land (modulateBlock '1' (fun _ _ => (-5 : ℤ)) 2 1) 1) = '1' :=
  ⟨Or.inr rfl, (modulate_read_round_trip (fun _ _ => (-5 : ℤ)) '1' (Or.inr rfl)).2.1⟩

/-! ### The quantizer (C9) -/

/-- C9: the encoder and the decoder quantize with the same function —
element-wise `round(coefficient / table_entry)` against the one fixed
table, with round-to-nearest (ties to even) — dequantization is
element-wise `integer * table_entry`, and the rounding really is to a
nearest integer (distance at most 1/2). -/
theorem quantizer_spec :
    quantizeBlockHide = quantizeBlockReveal
    ∧ (∀ m i j, quantizeBlockHide m i j =
        roundHalfEven (m i j / (quantization_table i j : ℚ)))
    ∧ (∀ q i j, dequantizeBlock q i j = (q i j : ℚ) * (quantization_table i j : ℚ))
    ∧ (∀ x : ℚ, |x - (roundHalfEven x : ℚ)| ≤ 1 / 2) := by
  refine ⟨rfl, fun _ _ _ => rfl, fun _ _ _ => rfl, ?_⟩
  intro x
  have h0 : (⌊x⌋ : ℚ) ≤ x := Int.floor_le x
  have h1 : x < (⌊x⌋ : ℚ) + 1 := Int.lt_floor_add_one x
  unfold roundHalfEven
  split_ifs with ha hb hc
  · rw [abs_le]
    constructor <;> linarith
  · push_cast
    rw [abs_le]
    constructor <;> linarith
  · rw [abs_le]
    constructor <;> linarith
  · push_cast
    rw [abs_le]
    constructor <;> linarith

/-! ### The capacity guard (C2, C3) -/

/-- C2 (amended): provided the message's UTF-8 bit length is below
`2^32` — so the 32-wide header really is 32 characters — `hide_message`
raises the capacity error if and only if the full payload bit length
`32 + 8·bytes` strictly exceeds the block count (equality succeeds, one
bit more raises), and when it raises the block list is still untouched. -/
theorem hide_capacity_check (blocks : List (Mat8 ℚ)) (msg : List (Fin 256))
    (h : 8 * msg.length < 2 ^ 32) :
    ((hide_message blocks msg).1.isSome = true ↔ blocks.length < 32 + 8 * msg.length)
    ∧ ((hide_message blocks msg).1.isSome = true → (hide_message blocks msg).2 = blocks) := by
  have hlen := fullPayload_length msg h
  by_cases hc : (fullPayload msg).length > blocks.length
  · rw [hide_message, if_pos hc]
    exact ⟨⟨fun _ => by omega, fun _ => rfl⟩, fun _ => rfl⟩
  · rw [hide_message, if_neg hc]
    refine ⟨⟨fun hfalse => by simp at hfalse, fun hlt => (by omega : False).elim⟩, ?_⟩
    intro hfalse
    simp at hfalse

/-- Witness for the (amended) C2 at 31 blocks and the empty message:
the 32-bit header alone exceeds 31 blocks, so the capacity error is
raised. -/
theorem hide_capacity_check_witness :
    8 * ([] : List (Fin 256)).length < 2 ^ 32
    ∧ (hide_message (List.replicate 31 zeroBlock) ([] : List (Fin 256))).1.isSome = true := by
  have h : 8 * ([] : List (Fin 256)).length < 2 ^ 32 := by norm_num
  refine ⟨h, ?_⟩
  exact (hide_capacity_check (List.replicate 31 zeroBlock) [] h).1.mpr
    (by rw [List.length_replicate]; norm_num)

/-- Counterexample to C2 as stated: a `2^29`-byte message has bit length
`2^32`, whose zero-padded binary numeral is 33 characters, one more than
the claimed 32 header bits; on an image with exactly `2^32 + 32` blocks
the code raises the capacity error although the claimed payload length
`32 + 8·bytes` does not exceed the block count. -/
theorem hide_capacity_check_counterexample :
    (hide_message (List.replicate (2 ^ 32 + 32) zeroBlock)
        (List.replicate (2 ^ 29) (65 : Fin 256))).1.isSome = true
    ∧ ¬ ((List.replicate (2 ^ 32 + 32) zeroBlock).length <
          32 + 8 * (List.replicate (2 ^ 29) (65 : Fin 256)).length) := by
  have hblen : (List.replicate (2 ^ 32 + 32) zeroBlock).length = 2 ^ 32 + 32 :=
    List.length_replicate _ _
  have hmlen : (List.replicate (2 ^ 29) (65 : Fin 256)).length = 2 ^ 29 :=
    List.length_replicate _ _
  have hmb : (message_to_binary (List.replicate (2 ^ 29) (65 : Fin 256))).length = 2 ^ 32 := by
    rw [message_to_binary_length, hmlen]
    norm_num
  have hne : (2 : ℕ) ^ 32 ≠ 0 := by norm_num
  have hhdr : (pyFormatBin 32 (2 ^ 32)).length = 33 := by
    have hle : (bitsMSB (2 ^ 32)).length ≤ 33 :=
      bitsMSB_length_le (by norm_num)
    have hgt : 32 < (bitsMSB (2 ^ 32)).length :=
      lt_bitsMSB_length (le_refl _)
    unfold pyFormatBin pyBin
    simp only [if_neg hne]
    simp only [List.length_append, List.length_replicate]
    omega
  have hpay : (fullPayload (List.replicate (2 ^ 29) (65 : Fin 256))).length
      = 33 + 2 ^ 32 := by
    rw [fullPayload, List.length_append, hmb, hhdr]
  constructor
  · rw [hide_message, if_pos (by rw [hpay, hblen]; norm_num)]
    rfl
  · rw [hblen, hmlen]
    norm_num

/-- C3: when `hide_message` raises, the error reports exactly the byte
capacity `(block_count - 32) // 8` (Python floor division on unbounded
integers: zero or negative for images with fewer than 32 blocks, never
a wrapped-around positive) together with the message's UTF-8 byte
count. -/
theorem capacity_error_contents (blocks : List (Mat8 ℚ)) (msg : List (Fin 256))
    (h : (fullPayload msg).length > blocks.length) :
    (hide_message blocks msg).1 =
      some ⟨Int.fdiv ((blocks.length : ℤ) - 32) 8, msg.length⟩
    ∧ (blocks.length < 32 → Int.fdiv ((blocks.length : ℤ) - 32) 8 ≤ 0) := by
  constructor
  · rw [hide_message, if_pos h]
  · intro h32
    rw [Int.fdiv_eq_ediv _ (by norm_num)]
    omega

/-- Witness for C3 at the empty block list and a 1-byte message: the
reported capacity is `(0 - 32) // 8 = -4 ≤ 0`, the reported size 1. -/
theorem capacity_error_contents_witness :
    (fullPayload [(65 : Fin 256)]).length > ([] : List (Mat8 ℚ)).length
    ∧ (hide_message ([] : List (Mat8 ℚ)) [(65 : Fin 256)]).1 =
        some ⟨Int.fdiv ((([] : List (Mat8 ℚ)).length : ℤ) - 32) 8, [(65 : Fin 256)].length⟩ := by
  have h : (fullPayload [(65 : Fin 256)]).length > ([] : List (Mat8 ℚ)).length := by
    rw [fullPayload_length _ (by norm_num)]
    simp
  exact ⟨h, (capacity_error_contents _ _ h).1⟩

/-! ### Padding and cropping (C8) -/

/-- C8: `_pad_image` rounds each dimension up to the smallest multiple
of 8 at least as large, keeps the original samples in the top-left
region, zero-fills only outside it (bottom and right), returns
already-aligned images with unchanged dimensions, and the final crop of
`hide_message` restores the original dimensions. -/
theorem pad_crop_spec (img : Image) (Y : Image)
    (hYh : Y.h = (pad_image img).h) (hYw : Y.w = (pad_image img).w) :
    (8 ∣ (pad_image img).h ∧ img.h ≤ (pad_image img).h ∧
      (∀ m : ℕ, 8 ∣ m → img.h ≤ m → (pad_image img).h ≤ m))
    ∧ (8 ∣ (pad_image img).w ∧ img.w ≤ (pad_image img).w ∧
      (∀ m : ℕ, 8 ∣ m → img.w ≤ m → (pad_image img).w ≤ m))
    ∧ (∀ i j c, i < img.h → j < img.w → (pad_image img).px i j c = img.px i j c)
    ∧ (∀ i j c, ¬(i < img.h ∧ j < img.w) → (pad_image img).px i j c = 0)
    ∧ (img.h % 8 = 0 → img.w % 8 = 0 →
        (pad_image img).h = img.h ∧ (pad_image img).w = img.w)
    ∧ ((cropImage Y img.h img.w).h = img.h ∧ (cropImage Y img.h img.w).w = img.w) := by
  have hh : (pad_image img).h = img.h + (8 - img.h % 8) % 8 := rfl
  have hw : (pad_image img).w = img.w + (8 - img.w % 8) % 8 := rfl
  refine ⟨⟨?_, ?_, ?_⟩, ⟨?_, ?_, ?_⟩, ?_, ?_, ?_, ?_, ?_⟩
  · rw [hh]; omega
  · rw [hh]; omega
  · intro m hm hle; rw [hh]; omega
  · rw [hw]; omega
  · rw [hw]; omega
  · intro m hm hle; rw [hw]; omega
  · intro i j c hi hj
    show (if i < img.h ∧ j < img.w then img.px i j c else 0) = img.px i j c
    rw [if_pos ⟨hi, hj⟩]
  · intro i j c hij
    show (if i < img.h ∧ j < img.w then img.px i j c else 0) = 0
    rw [if_neg hij]
  · intro h8 w8
    constructor
    · rw [hh]; omega
    · rw [hw]; omega
  · show min img.h Y.h = img.h
    rw [hYh, hh]; omega
  · show min img.w Y.w = img.w
    rw [hYw, hw]; omega

/-- Witness for C8 at a 10×10 constant image: the padded image is
16×16 and the cropped stego image is 10×10 again. -/
theorem pad_crop_spec_witness :
    (pad_image (Image.mk 10 10 (fun _ _ _ => 7))).h = 16
    ∧ (cropImage (pad_image (Image.mk 10 10 (fun _ _ _ => 7))) 10 10).h = 10
    ∧ (cropImage (pad_image (Image.mk 10 10 (fun _ _ _ => 7))) 10 10).w = 10 := by
  have h := pad_crop_spec (Image.mk 10 10 (fun _ _ _ => 7))
    (pad_image (Image.mk 10 10 (fun _ _ _ => 7))) rfl rfl
  exact ⟨rfl, h.2.2.2.2.2.1, h.2.2.2.2.2.2⟩

/-! ### The payload layout (C4) -/

theorem bitsMSB_eq_map_range {w n : ℕ} (h1 : 2 ^ w ≤ n) (h2 : n < 2 ^ (w + 1)) :
    bitsMSB n = (List.range (w + 1)).map (fun i => bitChar ((n >>> (w - i)) % 2)) := by
  induction w generalizing n with
  | zero =>
    have hn : n = 1 := by
      norm_num at h1 h2
      omega
    subst hn
    simp [bitsMSB, bitChar]
  | succ w ih =>
    have hp2 : 2 ^ (w + 2) = 2 * 2 ^ (w + 1) := by ring
    have hp1 : 2 ^ (w + 1) = 2 * 2 ^ w := by ring
    obtain ⟨m, rfl⟩ : ∃ m, n = m + 1 := ⟨n - 1, by omega⟩
    rw [bitsMSB]
    have hdiv1 : 2 ^ w ≤ (m + 1) / 2 := by omega
    have hdiv2 : (m + 1) / 2 < 2 ^ (w + 1) := by omega
    rw [ih hdiv1 hdiv2]
    conv_rhs => rw [List.range_succ, List.map_append]
    congr 1
    · apply List.map_congr_left
      intro i hi
      have hiw : i ≤ w := by
        have := List.mem_range.1 hi
        omega
      have hidx : w + 1 - i = (w - i) + 1 := by omega
      have hsh : ((m + 1) / 2) >>> (w - i) = (m + 1) >>> (w + 1 - i) := by
        rw [Nat.shiftRight_eq_div_pow, Nat.shiftRight_eq_div_pow, hidx,
          Nat.div_div_eq_div_mul]
        congr 1
        rw [pow_succ]
        ring
      rw [hsh]
    · simp

theorem map_range_zero_bits {a : ℕ} (f : ℕ → Char)
    (hf : ∀ i < a, f i = '0') :
    (List.range a).map f = List.replicate a '0' := by
  have h : ∀ b ∈ (List.range a).map f, b = '0' := by
    intro b hb
    rcases List.mem_map.1 hb with ⟨i, hi, rfl⟩
    exact hf i (List.mem_range.1 hi)
  have := List.eq_replicate_of_mem h
  simpa using this

theorem map_range_split (f : ℕ → Char) (a b : ℕ) :
    (List.range (a + b)).map f =
      (List.range a).map f ++ (List.range b).map (fun i => f (a + i)) := by
  rw [List.range_add, List.map_append, List.map_map]
  rfl

theorem pyFormatBin_eq_msbBits (w n : ℕ) (hw : 1 ≤ w) (h : n < 2 ^ w) :
    pyFormatBin w n = (List.range w).map (fun i => bitChar ((n >>> (w - 1 - i)) % 2)) := by
  by_cases hn : n = 0
  · subst hn
    unfold pyFormatBin pyBin
    rw [if_pos rfl]
    have hrhs : (List.range w).map (fun i => bitChar ((0 >>> (w - 1 - i)) % 2)) =
        List.replicate w '0' := by
      apply map_range_zero_bits
      intro i _
      simp [Nat.zero_shiftRight, bitChar]
    rw [hrhs]
    have hw' : List.replicate w '0' = List.replicate ((w - 1) + 1) '0' := by
      congr 1
      omega
    rw [hw', List.replicate_add]
    rfl
  · have hk1 : 2 ^ Nat.log2 n ≤ n := Nat.log2_self_le hn
    have hk2 : n < 2 ^ (Nat.log2 n + 1) := Nat.lt_log2_self
    set k := Nat.log2 n with hkdef
    have hkw : k + 1 ≤ w := by
      by_contra hcon
      push_neg at hcon
      have hle : 2 ^ w ≤ 2 ^ k := Nat.pow_le_pow_right (by omega) (by omega)
      omega
    have hbits := bitsMSB_eq_map_range hk1 hk2
    have hblen : (bitsMSB n).length = k + 1 := by
      rw [hbits]
      simp
    unfold pyFormatBin pyBin
    rw [if_neg hn, hblen, hbits]
    have hzero : (List.range (w - (k + 1))).map
        (fun i => bitChar ((n >>> (w - 1 - i)) % 2)) =
        List.replicate (w - (k + 1)) '0' := by
      apply map_range_zero_bits
      intro i hi
      have hbig : n < 2 ^ (w - 1 - i) :=
        calc n < 2 ^ (k + 1) := hk2
        _ ≤ 2 ^ (w - 1 - i) := Nat.pow_le_pow_right (by omega) (by omega)
      rw [Nat.shiftRight_eq_div_pow, Nat.div_eq_of_lt hbig]
      rfl
    have hshift : (List.range (k + 1)).map (fun i => bitChar ((n >>> (k - i)) % 2)) =
        (List.range (k + 1)).map
          (fun i => bitChar ((n >>> (w - 1 - (w - (k + 1) + i))) % 2)) := by
      apply List.map_congr_left
      intro i hi
      have hik : i < k + 1 := List.mem_range.1 hi
      have hidx : w - 1 - (w - (k + 1) + i) = k - i := by omega
      rw [hidx]
    rw [← hzero, hshift]
    have hsplit := map_range_split
      (fun i => bitChar ((n >>> (w - 1 - i)) % 2)) (w - (k + 1)) (k + 1)
    rw [← hsplit]
    have hww : w - (k + 1) + (k + 1) = w := by omega
    rw [hww]

/-- C4: for every message whose UTF-8 bit length is below `2^32`, the
full embedded payload is exactly the 32-character most-significant-bit
first binary representation of the bit length, followed by the UTF-8
bytes each expanded to 8 bits most-significant-bit first in byte
order. -/
theorem payload_layout (msg : List (Fin 256)) (h : 8 * msg.length < 2 ^ 32) :
    fullPayload msg = headerSpec (8 * msg.length) ++ bodyBitsSpec msg := by
  have hmb := message_to_binary_length msg
  unfold fullPayload headerSpec bodyBitsSpec
  congr 1
  · rw [hmb, pyFormatBin_eq_msbBits 32 (8 * msg.length) (by omega) (by omega)]
  · unfold message_to_binary
    congr 1
    apply List.map_congr_left
    intro b _
    rw [pyFormatBin_eq_msbBits 8 b.val (by omega) (by exact_mod_cast b.isLt)]

/-- Witness for C4 at the 1-byte message `A` (byte 65). -/
theorem payload_layout_witness :
    8 * [(65 : Fin 256)].length < 2 ^ 32
    ∧ fullPayload [(65 : Fin 256)] =
        headerSpec (8 * [(65 : Fin 256)].length) ++ bodyBitsSpec [(65 : Fin 256)] :=
  ⟨by norm_num, payload_layout [(65 : Fin 256)] (by norm_num)⟩

end DCTStego
